import Mathlib

/-!
Verification development for the hundo CREST classifier
(`hundo/crest_classifier.py`).

The taxonomy tree read by `Bio.Phylo` is modelled as a rose tree of
clades.  A clade object is identified by its *position*: the list of
child indices leading to it from the root (the root is `[]`).  Python
object identity on clades corresponds to equality of positions, since
every clade object occurs exactly once in the tree.

Numeric fields (`similarity_cutoff`, `pident`, `bitscore`) are `float`
in the source; the program only ever compares them, so they are
modelled as rationals.

Dictionaries (`node_names`, `assignment_min`, the rendered taxonomy
`OrderedDict`) are modelled as insertion-ordered association lists with
in-place overwrite on an existing key, matching Python `dict`
semantics.
-/

set_option linter.unusedVariables false

/-- A clade of the parsed tree: a name and an ordered list of child clades
(`Bio.Phylo.Newick.Clade`; an unnamed clade is modelled with name `""`,
which compares unequal to every taxon name, as `None` does in Python). -/
inductive Clade : Type where
  | node (name : String) (clades : List Clade) : Clade

/-- A position: the list of child indices from the root down to a clade. -/
abbrev Pos := List Nat

def Clade.name : Clade → String
  | .node n _ => n

def Clade.clades : Clade → List Clade
  | .node _ cs => cs

/-- Resolve a position to the clade object sitting there, if any. -/
def subclade : Clade → Pos → Option Clade
  | c, [] => some c
  | c, i :: p =>
    match c.clades.get? i with
    | some ci => subclade ci p
    | none => none

/-- The current `.name` attribute of the clade at a position. -/
def nodeName (t : Clade) (p : Pos) : Option String :=
  (subclade t p).map Clade.name

mutual
/-- The traversal `Tree.get_all_children(node, children, parent)`: it visits
every clade below `node` (post-order) and records `self.parents[node] = parent`
for each.  We model the recorded `(node, parent)` assignments; `pos` is the
position of `node` and `par` the parent value passed in (the root is called
with `parent=None`). -/
def get_all_children : Clade → Pos → Option Pos → List (Pos × Option Pos)
  | .node _ cs, pos, par => get_all_children_aux cs 0 pos ++ [(pos, par)]

/-- The inner `for c in node.clades` loop of `get_all_children`, recursing into
the children starting at child index `i`. -/
def get_all_children_aux : List Clade → Nat → Pos → List (Pos × Option Pos)
  | [], _, _ => []
  | c :: cs, i, pos =>
    get_all_children c (pos ++ [i]) (some pos) ++ get_all_children_aux cs (i + 1) pos
end

/-- The parents dictionary lookup, `Tree.get_parent`.  After `__init__`,
`get_all_children(self.root)` has recorded, for every clade of the tree, the
clade that recursed into it — its structural parent — and `None` for the root
(see `get_all_children_records_parent` below).  `get_parent` returns the
dictionary entry; the fallback through `self.tree.get_path` is unreachable,
every clade being in the dictionary. -/
def get_parent (p : Pos) : Option Pos :=
  if p = [] then none else some p.dropLast

/-- The while loop of `Tree.get_path`: `plist` is the accumulated path,
`parent` the current parent value.  The loop prepends parents while the parent
exists and is not the root; falling out with `parent = None` logs
"Cannot find parent beyond ..." and returns `None` (modelled `none`).  `fuel`
bounds the iteration count; parents strictly shorten, so `fuel` never runs out
when started with the node's own length. -/
def get_path_go : Nat → Option Pos → List Pos → Option (List Pos)
  | _, none, _ => none
  | fuel, some par, plist =>
    if par = [] then some plist
    else
      match fuel with
      | 0 => none
      | fuel' + 1 => get_path_go fuel' (get_parent par) (par :: plist)

/-- `Tree.get_path(node)`: the chain built by repeated `get_parent` calls.
Nothing is prepended once the parent is the root, so the returned chain
*excludes* the root — unless `node` is the root itself, in which case the
early return gives `[node]`. -/
def get_path (node : Pos) : Option (List Pos) :=
  if node = [] then some [node]
  else get_path_go node.length (get_parent node) [node]

/-- The ancestor chain `[p.take 1, p.take 2, …, p]` that `get_path` computes
for a non-root node (closed form, root excluded). -/
def ancChain (p : Pos) : List Pos :=
  (List.range p.length).map (fun i => p.take (i + 1))

/-- `Tree.get_depth(node)`: the length of `get_path(node)`, with the
`len(pth)==1 and pth[0] is self.tree.root` case mapped to `0`.  `none` models
the `TypeError` that `len(None)` would raise on a failed path. -/
def get_depth (p : Pos) : Option Nat :=
  (get_path p).map (fun pth => if pth.length = 1 ∧ pth.head? = some [] then 0 else pth.length)

/-- Python dict lookup `d.get(k)` on an insertion-ordered association list. -/
def dictLookup {β : Type} (d : List (String × β)) (k : String) : Option β :=
  (d.find? (fun kv => kv.1 == k)).map (fun kv => kv.2)

/-- Python dict assignment `d[k] = v`: overwrite in place if the key exists,
else append at the end. -/
def dictSet {β : Type} (d : List (String × β)) (k : String) (v : β) : List (String × β) :=
  if d.any (fun kv => kv.1 == k) then
    d.map (fun kv => if kv.1 == k then (k, v) else kv)
  else d ++ [(k, v)]

/-- Auxiliary for `firstDedup`: keep the elements not yet `seen`, in order. -/
def firstDedupAux {α : Type} [BEq α] : List α → List α → List α
  | [], _ => []
  | x :: xs, seen =>
    if seen.contains x then firstDedupAux xs seen
    else x :: firstDedupAux xs (x :: seen)

/-- Remove duplicates keeping the first occurrence of each element (used to
model Python dict key order and `list(set(...))`; the iteration order of a
Python `set` is unspecified — none of the theorems below depend on it). -/
def firstDedup {α : Type} [BEq α] (l : List α) : List α :=
  firstDedupAux l []

/-- Insert into a sorted list, before the first element not `le`-below the
inserted one (stable insertion, earlier elements stay first among ties). -/
def insertLe {α : Type} (le : α → α → Bool) (a : α) : List α → List α
  | [] => [a]
  | b :: bs => if le a b then a :: b :: bs else b :: insertLe le a bs

/-- Stable insertion sort, modelling Python's stable `sorted`. -/
def insertionSort {α : Type} (le : α → α → Bool) : List α → List α
  | [] => []
  | a :: as => insertLe le a (insertionSort le as)

/-- The inner `while not lca_path[-1] in path` loop of `get_common_ancestor`,
on the *reversed* candidate path (so `lca_path[-1]` is the head and
`lca_path.pop()` is the tail).  `none` models the `return self.tree.root`
taken when the candidate shrinks to a single unmatched element. -/
def shrinkRev (path : List Pos) : List Pos → Option (List Pos)
  | [] => none
  | x :: rest =>
    if path.contains x then some (x :: rest)
    else
      match rest with
      | [] => none
      | _ :: _ => shrinkRev path rest

/-- The `for path in paths[1:]` loop of `get_common_ancestor`: intersect the
reversed candidate path with each further path; an early root return yields
the root `[]` directly, otherwise the final `lca_path[-1]` is returned. -/
def lcaFold : List Pos → List (List Pos) → Pos
  | lcaRev, [] => lcaRev.headD []
  | lcaRev, path :: rest =>
    match shrinkRev path lcaRev with
    | none => []
    | some l => lcaFold l rest

/-- `Tree.get_common_ancestor(node_names)`.  Each name is resolved through
`self.node_names.get` (`none` for an unknown name, like Python `None`);
`list(set(...))` is modelled by `firstDedup`.  When more than one distinct
resolution remains, the code evaluates `sorted([self.get_path(n) for n in
nodes], key=len)`: `get_path(None)` returns `None`, and `len(None)` then
raises an uncaught `TypeError`, modelled as `.error ()`.  `paths[0]` on an
empty list (empty input) likewise raises, modelled as `.error ()`. -/
def get_common_ancestor (node_names : List (String × Pos)) (names : List String) :
    Except Unit (Option Pos) :=
  let nodes : List (Option Pos) := firstDedup (names.map (fun n => dictLookup node_names n))
  if nodes.length = 1 then .ok (nodes.headD none)
  else
    let optPaths := nodes.map (fun nd => nd.bind (fun p => get_path p))
    if optPaths.any (fun op => op.isNone) then .error ()
    else
      match insertionSort (fun a b => decide (a.length ≤ b.length)) (optPaths.filterMap id) with
      | [] => .error ()
      | lca_path :: rest => .ok (some (lcaFold lca_path.reverse rest))

/-- The threshold-gated climbing loop of `parse_blasthits`:
`while lca_node.name in tre.assignment_min and hits.percent_ids[-1] <
tre.assignment_min[lca_node.name] and lca_node is not tre.root: lca_node =
tre.get_parent(lca_node)`.  `weakest` is `hits.percent_ids[-1]`.  `fuel`
bounds the iterations; each step strictly shortens the position and the loop
stops at the root, so `p.length` fuel is never exhausted (see
`climb_fuel_sufficient`). -/
def climb (t : Clade) (assignment_min : List (String × Rat)) (weakest : Rat) :
    Nat → Pos → Pos
  | 0, p => p
  | fuel + 1, p =>
    match (nodeName t p).bind (fun nm => dictLookup assignment_min nm) with
    | some thr =>
      if weakest < thr ∧ p ≠ [] then
        match get_parent p with
        | some q => climb t assignment_min weakest fuel q
        | none => p
      else p
    | none => p

/-- The eukaryote-filter branch of `parse_blasthits`:
`tre.get_path(lca_node)[1].name == "Eukaryota"` decides between the no-hits
sentinel and the climbed node.  A failed path (`None[1]`, `TypeError`) or an
index out of bounds (`IndexError`) is modelled as `.error ()`. -/
def euk_branch (t : Clade) (no_hits lca : Pos) : Except Unit Pos :=
  match (get_path lca).bind (fun pth => pth.get? 1) with
  | none => .error ()
  | some second =>
    if nodeName t second = some "Eukaryota" then .ok no_hits else .ok lca

-- The taxonomy renderer.

/-- The `Tree.depths` rank table (`depths beyond the table do not occur in
`get_taxonomy`, whose guard restricts to `2 ≤ depth ≤ 10`). -/
def depthName : Nat → String
  | 0 => "root"
  | 1 => "meta"
  | 2 => "domain"
  | 3 => "superkingdom"
  | 4 => "kingdom"
  | 5 => "phylum"
  | 6 => "class"
  | 7 => "order"
  | 8 => "family"
  | 9 => "genus"
  | 10 => "species"
  | 11 => "strain"
  | _ => ""

/-- The slot abbreviation: `"k"` if `Tree.depths[depth][0] == "d"`, else the
first character of the rank name. -/
def abb (d : Nat) : String :=
  if (depthName d).take 1 = "d" then "k" else (depthName d).take 1

/-- The initial `OrderedDict`: keys `k p c o f g s`, all `"?"`. -/
def taxInit : List (String × String) :=
  [("k", "?"), ("p", "?"), ("c", "?"), ("o", "?"), ("f", "?"), ("g", "?"), ("s", "?")]

/-- The space normalization `clade.name.replace(" ", "_")` of `get_taxonomy`
(written out character by character; for the single-character pattern this is
exactly Python's and Lean's `replace`, and it evaluates in the kernel). -/
def underscore (s : String) : String :=
  String.mk (s.toList.map (fun ch => if ch = ' ' then '_' else ch))

/-- One iteration of the `for clade in self.get_path(node)` loop of
`get_taxonomy`: compute the clade's depth and, when `META < depth <
SUBSPECIES` and the depth is neither `SUPERKINGDOM` nor `KINGDOM`, write the
clade's name (spaces replaced by underscores) into the slot `abb depth`. -/
def tax_step (t : Clade) (tax : List (String × String)) (q : Pos) :
    Option (List (String × String)) :=
  match get_depth q with
  | none => none
  | some depth =>
    if 1 < depth ∧ depth < 11 ∧ ¬ depth = 3 ∧ ¬ depth = 4 then
      match nodeName t q with
      | none => none
      | some nm => some (dictSet tax (abb depth) (underscore nm))
    else some tax

/-- `Tree.get_taxonomy(node)`: all-`"?"` for `None`, otherwise the fold of
`tax_step` over the node's path. -/
def get_taxonomy (t : Clade) (node : Option Pos) : Option (List (String × String)) :=
  match node with
  | none => some taxInit
  | some p =>
    match get_path p with
    | none => none
    | some pth => pth.foldlM (tax_step t) taxInit

/-- Closed form of one rendered slot: the name of the depth-`d` ancestor
(spaces to underscores) when the node is at depth `≥ d`, else `"?"`.
(The `getD "?"` fallback is unreachable for a node of the tree.) -/
def slotVal (t : Clade) (p : Pos) (d : Nat) : String :=
  if d ≤ p.length then
    underscore (((subclade t (p.take d)).map Clade.name).getD "?")
  else "?"

/-- Closed form of the rendered taxonomy of the node at `p`. -/
def taxClosed (t : Clade) (p : Pos) : List (String × String) :=
  [("k", slotVal t p 2), ("p", slotVal t p 5), ("c", slotVal t p 6), ("o", slotVal t p 7),
   ("f", slotVal t p 8), ("g", slotVal t p 9), ("s", slotVal t p 10)]

-- The tree builder (`Tree.__init__` map-file loop, `add_node`, `verify_node`).

/-- One of the accession regular expressions: `re.match` of
`\D{nd}\d{dg}\Z` — the string is exactly `nd` non-digit characters followed
by `dg` digits. -/
def acc_match (nd dg : Nat) (s : String) : Bool :=
  s.toList.length == nd + dg &&
    (s.toList.take nd).all (fun c => !c.isDigit) &&
    (s.toList.drop nd).all (fun c => c.isDigit)

/-- The four accession patterns of `Tree.__init__`:
`\D\D\d{6}`, `\D\d{5}`, `\D{4}\d{9}`, `\D{4}\d{8}`. -/
def isAccession (s : String) : Bool :=
  acc_match 2 6 s || acc_match 1 5 s || acc_match 4 9 s || acc_match 4 8 s

/-- The mutation `n.name = name`: replace the name of the clade at a
position (the tree is otherwise unchanged; a dangling position leaves the
tree as is — unreachable, the position comes from `node_ids`). -/
def renameAt : Clade → Pos → String → Clade
  | .node _ cs, [], s => .node s cs
  | .node nm cs, i :: p, s =>
    match cs.get? i with
    | some ci => .node nm (cs.set i (renameAt ci p s))
    | none => .node nm cs

/-- The mutable state of `Tree` touched by the map-file loop and `add_node`:
the tree itself (clade names are mutable), the `node_names` index and
`assignment_min`.  (`node_ids` is fixed after the initial traversal and is
passed separately; `parents` is the structural parent map, `get_parent`.) -/
structure BuildState where
  tree : Clade
  node_names : List (String × Pos)
  assignment_min : List (String × Rat)

/-- A parsed row of the `.map` file: `toks[0]`, `toks[1]`, `float(toks[3])`. -/
structure MapRow where
  node_id : String
  name : String
  similarity_cutoff : Rat

/-- One iteration of the map-file loop of `Tree.__init__`: look the node up
by raw id (absent: log and skip); register `name → node` in `node_names`
(a plain dict assignment — an existing binding is overwritten); then, if
`similarity_cutoff >= 0` and the name matches none of the accession
patterns, record `assignment_min[name]` and rename the node. -/
def processRow (node_ids : String → Option Pos) (st : BuildState) (row : MapRow) :
    BuildState :=
  match node_ids row.node_id with
  | some n =>
    let st1 : BuildState := { st with node_names := dictSet st.node_names row.name n }
    if 0 ≤ row.similarity_cutoff ∧ isAccession row.name = false then
      { st1 with
        assignment_min := dictSet st1.assignment_min row.name row.similarity_cutoff,
        tree := renameAt st1.tree n row.name }
    else st1
  | none => st

/-- The polymorphic node argument of `verify_node`: a clade reference or a
name string. -/
inductive NodeRef : Type where
  | ref (p : Pos) : NodeRef
  | byName (s : String) : NodeRef

/-- `Tree.verify_node`: a clade instance passes through; a string resolves
through the name index, logging and returning `None` when absent. -/
def verify_node (st : BuildState) : NodeRef → Option Pos
  | .ref p => some p
  | .byName s => dictLookup st.node_names s

/-- `parent.clades.append(node)`: append a child clade at a position. -/
def appendChild : Clade → Pos → Clade → Clade
  | .node nm cs, [], c => .node nm (cs ++ [c])
  | .node nm cs, i :: p, c =>
    match cs.get? i with
    | some ci => .node nm (cs.set i (appendChild ci p c))
    | none => .node nm cs

/-- `Tree.add_node(nodename, parent, assignment_min=0)`: a duplicate name is
logged and not added (`return None`, state untouched); an unresolvable parent
returns `None`; otherwise the new clade is appended to the parent's children,
indexed under its name, given the assignment minimum, and its parent
recorded (the structural parent of the new position, as `get_parent` has it). -/
def add_node (st : BuildState) (nodename : String) (parent : NodeRef)
    (amin : Rat := 0) : Option Pos × BuildState :=
  if (dictLookup st.node_names nodename).isSome then (none, st)
  else
    match verify_node st parent with
    | none => (none, st)
    | some ppos =>
      match subclade st.tree ppos with
      | none => (none, st)
      | some pc =>
        let npos := ppos ++ [pc.clades.length]
        (some npos,
          { tree := appendChild st.tree ppos (.node nodename []),
            node_names := dictSet st.node_names nodename npos,
            assignment_min := dictSet st.assignment_min nodename amin })

-- The classification orchestrator (`parse_blasthits`).

/-- An `OTU` record: name, sequence, and an optional classification. -/
structure OTU where
  name : String
  sequence : String
  classification : Option Pos

/-- One parsed BLAST6 alignment record (the fields `parse_blasthits` uses). -/
structure BlastRec where
  qseqid : String
  sseqid : String
  pident : Rat
  bitscore : Rat

/-- Modelled from the spec: the per-query hit set exposed by the external
hit-aggregation collaborator (`hundo.blast.BlastHits`, not part of this
repository's sources) — the ordered-with-duplicates reference names of the
retained hits, and the percent identities ordered so that the *last* element
is the minimum identity among them. -/
structure HitSetM where
  names : List String
  percent_ids : List Rat

/-- The per-query body of the `for otu_name, hits in hsps.items()` loop:
resolve the LCA (a falsy result — `None` — assigns the no-hits sentinel),
climb through thresholds, then apply the optional eukaryote filter.
`hits.percent_ids[-1]` is read once here; by the aggregation contract a hit
set holds at least one hit, and on an empty list both the code
(`IndexError`) and the model (`.error ()`) fail the query. -/
def classify_hits (t : Clade) (node_names : List (String × Pos))
    (assignment_min : List (String × Rat)) (no_hits : Pos) (euk_filter : Bool)
    (hits : HitSetM) : Except Unit Pos :=
  match get_common_ancestor node_names hits.names with
  | .error e => .error e
  | .ok none => .ok no_hits
  | .ok (some lca0) =>
    match hits.percent_ids.getLast? with
    | none => .error ()
    | some weakest =>
      let lca := climb t assignment_min weakest lca0.length lca0
      if euk_filter then euk_branch t no_hits lca else .ok lca

/-- `parse_blasthits(blasthits, otus, tre, min_score, top_fraction,
euk_filter)`.  Records with `bitscore < min_score` are skipped before
aggregation, so `hsps` has a key exactly for each query with at least one
retained record (in first-appearance order, as for a `defaultdict`); the
external aggregation of a query's retained records into a `BlastHits` is the
`aggregate` parameter.  For each `(otu_name, hits)` pair, `otus[otu_name]`
raises `KeyError` for an unknown query (modelled `.error ()`), and otherwise
only the OTU's `classification` attribute is assigned.

The body of the `for otu_name, hits in hsps.items()` loop sits in
`classify_step`, the step of the fold over the query ids. -/
def classify_step (t : Clade) (node_names : List (String × Pos))
    (assignment_min : List (String × Rat)) (no_hits : Pos) (euk_filter : Bool)
    (aggregate : List BlastRec → HitSetM) (pass : List BlastRec)
    (acc : List (String × OTU)) (q : String) : Except Unit (List (String × OTU)) :=
  let hits := aggregate (pass.filter (fun r => r.qseqid == q))
  match dictLookup acc q with
  | none => .error ()
  | some otu =>
    match classify_hits t node_names assignment_min no_hits euk_filter hits with
    | .error e => .error e
    | .ok cls => .ok (dictSet acc q { otu with classification := some cls })

def parse_blasthits (aggregate : List BlastRec → HitSetM) (blastrecs : List BlastRec)
    (otus : List (String × OTU)) (t : Clade) (node_names : List (String × Pos))
    (assignment_min : List (String × Rat)) (no_hits : Pos)
    (min_score : Rat) (euk_filter : Bool) : Except Unit (List (String × OTU)) :=
  let pass := blastrecs.filter (fun r => !decide (r.bitscore < min_score))
  let qids := firstDedup (pass.map (fun r => r.qseqid))
  qids.foldlM (classify_step t node_names assignment_min no_hits euk_filter aggregate pass)
    otus

/-- Modelled from the spec: a simple instantiation of the external
aggregation collaborator used for concrete witnesses — every record is
retained, names in record order, identities sorted descending so the minimum
is last, per the HitSet contract. -/
def simpleAggregate (recs : List BlastRec) : HitSetM :=
  { names := recs.map (fun r => r.sseqid),
    percent_ids := insertionSort (fun a b => decide (b ≤ a)) (recs.map (fun r => r.pident)) }

-- Concrete inputs used by witnesses and counterexamples.

/-- A small tree: root with children "No hits" (position `[0]`) and "A"
(position `[1]`). -/
def exTree : Clade := .node "root" [.node "No hits" [], .node "A" []]

/-- Its name index as built by the map-file loop: "A" registered. -/
def exNames : List (String × Pos) := [("A", [1])]

/-- A tree whose root's immediate child is named "Eukaryota", with a
grandchild "X" at position `[1, 0]`. -/
def exTreeEuk : Clade :=
  .node "root" [.node "No hits" [], .node "Eukaryota" [.node "X" []]]

/-- A tree with the conventional meta level: root → "meta" → "Eukaryota" →
"Y", so "Eukaryota" sits at depth 2 (position `[1, 0]`). -/
def exTreeEuk2 : Clade :=
  .node "root" [.node "No hits" [], .node "meta" [.node "Eukaryota" [.node "Y" []]]]

/-- A tree with a superkingdom-depth clade: root → "meta" → "Dom" (depth 2)
→ "SuperK" (depth 3, position `[1, 0, 0]`). -/
def exTreeTax : Clade :=
  .node "root" [.node "No hits" [], .node "meta" [.node "Dom" [.node "SuperK" []]]]

/-- A two-leaf tree for the builder claims: raw ids "n1" (position `[0]`)
and "n2" (position `[1]`). -/
def exTree0 : Clade := .node "root" [.node "n1" [], .node "n2" []]

/-- The raw-id index `node_ids` for `exTree0`. -/
def exNodeIds : String → Option Pos :=
  fun s => if s == "n1" then some [0] else if s == "n2" then some [1] else none

/-- The builder state for `exTree0` before any map row. -/
def exSt0 : BuildState := ⟨exTree0, [], []⟩

/-- A single-OTU collection for the orchestrator claims. -/
def exOtus : List (String × OTU) := [("q1", ⟨"q1", "ACGT", none⟩)]

/-- A two-OTU collection: "q1" will keep only low-scoring records, "q2" a
good one. -/
def exOtus2 : List (String × OTU) :=
  [("q1", ⟨"q1", "ACGT", none⟩), ("q2", ⟨"q2", "GGGG", none⟩)]

/-- The frame of an OTU collection: keys in order, with each OTU's name and
sequence — everything `parse_blasthits` must leave untouched. -/
def otuShape (l : List (String × OTU)) : List (String × String × String) :=
  l.map (fun kv => (kv.1, kv.2.name, kv.2.sequence))

-- Basic facts about the path machinery.

theorem subclade_append (t : Clade) (a b : Pos) :
    subclade t (a ++ b) = (subclade t a).bind (fun c => subclade c b) := by
  induction a generalizing t with
  | nil => simp [subclade]
  | cons i p ih =>
    simp only [List.cons_append, subclade]
    cases h : t.clades.get? i with
    | none => simp
    | some ci => simp [ih]

theorem subclade_take_isSome (t : Clade) (p : Pos) (d : Nat)
    (hv : (subclade t p).isSome) : (subclade t (p.take d)).isSome := by
  have hsplit : p = p.take d ++ p.drop d := (List.take_append_drop d p).symm
  rw [hsplit, subclade_append] at hv
  cases h : subclade t (p.take d) with
  | none => rw [h] at hv; simp [Option.bind] at hv
  | some c => simp

theorem ancChain_concat (p : Pos) (hp : p ≠ []) :
    ancChain p = ancChain p.dropLast ++ [p] := by
  have hlen : p.length = p.dropLast.length + 1 := by
    have := List.length_dropLast p
    have hpos : 0 < p.length := List.length_pos.mpr hp
    omega
  unfold ancChain
  rw [hlen, List.range_succ, List.map_append]
  congr 1
  · -- the common prefix: taking `i+1 ≤ dropLast.length` agrees on `p` and `p.dropLast`
    apply List.map_congr_left
    intro i hi
    rw [List.mem_range] at hi
    rw [List.dropLast_eq_take, List.take_take]
    congr 1
    omega
  · simp only [List.map_cons, List.map_nil]
    rw [List.take_of_length_le (by omega)]

theorem get_path_go_spec (q : Pos) :
    ∀ (fuel : Nat) (acc : List Pos), q.length ≤ fuel →
      get_path_go fuel (some q) acc = some (ancChain q ++ acc) := by
  induction q using List.reverseRecOn with
  | nil =>
    intro fuel acc _
    cases fuel <;> simp [get_path_go, ancChain]
  | append_singleton q i ih =>
    intro fuel acc hfuel
    have hne : q ++ [i] ≠ [] := by simp
    have hlen : (q ++ [i]).length = q.length + 1 := by simp
    cases fuel with
    | zero => omega
    | succ fuel' =>
      have hdrop : (q ++ [i]).dropLast = q := by simp
      rw [get_path_go]
      simp only [if_neg hne]
      rw [get_parent, if_neg hne, hdrop]
      rw [ih fuel' ((q ++ [i]) :: acc) (by omega)]
      rw [ancChain_concat (q ++ [i]) hne, hdrop]
      simp

theorem get_path_eq_ancChain (p : Pos) (hp : p ≠ []) :
    get_path p = some (ancChain p) := by
  unfold get_path
  rw [if_neg hp, get_parent, if_neg hp]
  have hlen : p.dropLast.length ≤ p.length := by
    rw [List.length_dropLast]; omega
  rw [get_path_go_spec p.dropLast p.length [p] hlen]
  rw [ancChain_concat p hp]

theorem get_path_root : get_path [] = some [[]] := rfl

theorem ancChain_length (p : Pos) : (ancChain p).length = p.length := by
  simp [ancChain]

theorem ancChain_get? (p : Pos) (i : Nat) (hi : i < p.length) :
    (ancChain p).get? i = some (p.take (i + 1)) := by
  rw [List.get?_eq_getElem?]
  simp [ancChain, List.getElem?_map, List.getElem?_range, hi]

theorem ancChain_getLast? (p : Pos) (hp : p ≠ []) :
    (ancChain p).getLast? = some p := by
  have hlen : 0 < p.length := List.length_pos.mpr hp
  rw [ancChain_concat p hp]
  simp

theorem ancChain_head? (p : Pos) (hp : p ≠ []) :
    (ancChain p).head? = some (p.take 1) := by
  have hlen : 0 < p.length := List.length_pos.mpr hp
  obtain ⟨m, hm⟩ : ∃ m, p.length = m + 1 := ⟨p.length - 1, by omega⟩
  unfold ancChain
  rw [hm, List.range_succ_eq_map]
  simp

theorem root_not_mem_ancChain (p : Pos) : [] ∉ ancChain p := by
  intro hmem
  unfold ancChain at hmem
  rw [List.mem_map] at hmem
  obtain ⟨i, hi, htake⟩ := hmem
  rw [List.mem_range] at hi
  have : (p.take (i + 1)).length = i + 1 := by
    rw [List.length_take]; omega
  rw [htake] at this
  simp at this

theorem get_depth_eq_length (p : Pos) : get_depth p = some p.length := by
  by_cases hp : p = []
  · subst hp; rfl
  · unfold get_depth
    rw [get_path_eq_ancChain p hp]
    have h1 : (ancChain p).length = p.length := ancChain_length p
    have hpos : 0 < p.length := List.length_pos.mpr hp
    simp only [Option.map_some']
    congr 1
    by_cases hlen : (ancChain p).length = 1
    · have hhead : (ancChain p).head? = some (p.take 1) := ancChain_head? p hp
      rw [if_neg]
      · omega
      · rintro ⟨-, habs⟩
        rw [hhead] at habs
        have : p.take 1 = [] := by injection habs
        have : (p.take 1).length = 0 := by rw [this]; rfl
        rw [List.length_take] at this
        omega
    · rw [if_neg]
      · omega
      · rintro ⟨habs, -⟩; exact hlen habs

-- Faithfulness of `get_parent` to the traversal: every `(node, parent)`
-- assignment recorded by `get_all_children(root)` is exactly the structural
-- parent (root gets `None`), and every clade of the tree is recorded.

mutual
theorem get_all_children_mem :
    ∀ (c : Clade) (pos : Pos) (par : Option Pos) (q : Pos) (v : Option Pos),
      (q, v) ∈ get_all_children c pos par →
      pos <+: q ∧ ((q = pos ∧ v = par) ∨ (q ≠ pos ∧ v = some q.dropLast))
  | .node nm cs, pos, par, q, v => by
    intro hmem
    rw [get_all_children] at hmem
    rcases List.mem_append.mp hmem with h | h
    · obtain ⟨hpre, hne, hv⟩ := get_all_children_aux_mem cs 0 pos q v h
      exact ⟨hpre, Or.inr ⟨hne, hv⟩⟩
    · rw [List.mem_singleton, Prod.mk.injEq] at h
      exact ⟨h.1 ▸ List.prefix_refl _, Or.inl ⟨h.1, h.2⟩⟩

theorem get_all_children_aux_mem :
    ∀ (cs : List Clade) (i : Nat) (pos : Pos) (q : Pos) (v : Option Pos),
      (q, v) ∈ get_all_children_aux cs i pos →
      pos <+: q ∧ q ≠ pos ∧ v = some q.dropLast
  | [], _, _, _, _ => by intro hmem; simp [get_all_children_aux] at hmem
  | c :: cs, i, pos, q, v => by
    intro hmem
    rw [get_all_children_aux] at hmem
    rcases List.mem_append.mp hmem with h | h
    · obtain ⟨hpre, hcase⟩ := get_all_children_mem c (pos ++ [i]) (some pos) q v h
      have hlen : pos.length + 1 ≤ q.length := by
        have := hpre.length_le
        simpa using this
      have hne : q ≠ pos := by
        intro habs; rw [habs] at hlen; omega
      refine ⟨(List.prefix_append pos [i]).trans hpre, hne, ?_⟩
      rcases hcase with ⟨hq, hv⟩ | ⟨_, hv⟩
      · rw [hv, hq, List.dropLast_concat]
      · exact hv
    · exact get_all_children_aux_mem cs (i + 1) pos q v h
end

mutual
theorem get_all_children_covers :
    ∀ (c : Clade) (pos : Pos) (par : Option Pos) (q : Pos),
      (subclade c q).isSome →
      (pos ++ q, if q = [] then par else some (pos ++ q.dropLast)) ∈
        get_all_children c pos par
  | .node nm cs, pos, par, [] => by
    intro _
    rw [get_all_children]
    simp
  | .node nm cs, pos, par, j :: q' => by
    intro hv
    rw [subclade] at hv
    simp only [Clade.clades] at hv
    cases hcj : cs.get? j with
    | none => rw [hcj] at hv; simp at hv
    | some cj =>
      rw [hcj] at hv
      have hmem := get_all_children_aux_covers cs 0 pos j cj q' hcj hv
      rw [get_all_children]
      apply List.mem_append_left
      have hzero : (0 : Nat) + j = j := by omega
      rw [hzero] at hmem
      have hval : (if q' = [] then some pos else some (pos ++ j :: q'.dropLast)) =
          some (pos ++ (j :: q').dropLast) := by
        cases q' with
        | nil => simp
        | cons a q'' => simp
      rw [hval] at hmem
      have hne : (j :: q') ≠ ([] : Pos) := by simp
      rw [if_neg hne]
      exact hmem

theorem get_all_children_aux_covers :
    ∀ (cs : List Clade) (i : Nat) (pos : Pos) (j : Nat) (cj : Clade) (q : Pos),
      cs.get? j = some cj → (subclade cj q).isSome →
      (pos ++ (i + j) :: q,
        if q = [] then some pos else some (pos ++ (i + j) :: q.dropLast)) ∈
        get_all_children_aux cs i pos
  | [], _, _, j, _, _ => by intro hget _; simp at hget
  | c :: cs, i, pos, 0, cj, q => by
    intro hget hv
    have hc : c = cj := by simpa using hget
    subst hc
    rw [get_all_children_aux]
    apply List.mem_append_left
    have hmem := get_all_children_covers c (pos ++ [i]) (some pos) q hv
    have h1 : pos ++ [i] ++ q = pos ++ (i + 0) :: q := by simp
    have h2 : (if q = [] then some pos else some (pos ++ [i] ++ q.dropLast)) =
        (if q = [] then some pos else some (pos ++ (i + 0) :: q.dropLast)) := by
      by_cases hq : q = [] <;> simp [hq]
    rw [h1, h2] at hmem
    exact hmem
  | c :: cs, i, pos, j + 1, cj, q => by
    intro hget hv
    have hget' : cs.get? j = some cj := by simpa using hget
    rw [get_all_children_aux]
    apply List.mem_append_right
    have hmem := get_all_children_aux_covers cs (i + 1) pos j cj q hget' hv
    have harith : i + 1 + j = i + (j + 1) := by omega
    rw [harith] at hmem
    exact hmem
end

/-- Soundness of the `get_parent` model: every assignment the `__init__`
traversal `get_all_children(self.root)` records in `self.parents` is the
structural parent returned by `get_parent` (with `None` for the root). -/
theorem get_all_children_records_parent (t : Clade) (q : Pos) (v : Option Pos)
    (hmem : (q, v) ∈ get_all_children t [] none) : v = get_parent q := by
  obtain ⟨-, hcase⟩ := get_all_children_mem t [] none q v hmem
  rcases hcase with ⟨hq, hv⟩ | ⟨hne, hv⟩
  · rw [hv, hq, get_parent, if_pos rfl]
  · rw [hv, get_parent, if_neg hne]

/-- Completeness of the `get_parent` model: every clade of the tree receives
an entry in `self.parents`, so `get_parent` never falls through to the
`self.tree.get_path` fallback. -/
theorem get_all_children_complete (t : Clade) (q : Pos)
    (hv : (subclade t q).isSome) :
    (q, get_parent q) ∈ get_all_children t [] none := by
  have hmem := get_all_children_covers t [] none q hv
  by_cases hq : q = []
  · subst hq; simpa [get_parent] using hmem
  · simpa [get_parent, hq] using hmem

-- Dictionary lemmas.

theorem find?_map_overwrite {β : Type} (d : List (String × β)) (k : String) (v : β) :
    (d.map (fun kv => if kv.1 == k then (k, v) else kv)).find? (fun kv => kv.1 == k) =
      if d.any (fun kv => kv.1 == k) then some (k, v) else none := by
  induction d with
  | nil => simp
  | cons a d ih =>
    by_cases ha : a.1 == k
    · simp [List.find?_cons, ha, eq_of_beq ha]
    · simp only [List.map_cons, List.find?_cons, List.any_cons]
      rw [if_neg ha]
      simp only [ha, cond_false, Bool.false_or]
      exact ih

theorem find?_map_other {β : Type} (d : List (String × β)) (k k' : String) (v : β)
    (hne : (k' == k) = false) :
    (d.map (fun kv => if kv.1 == k then (k, v) else kv)).find? (fun kv => kv.1 == k') =
      d.find? (fun kv => kv.1 == k') := by
  induction d with
  | nil => simp
  | cons a d ih =>
    by_cases ha : a.1 == k
    · have hak : a.1 = k := eq_of_beq ha
      have h1 : (k == k') = false := by
        rw [beq_eq_false_iff_ne] at hne ⊢
        exact fun h => hne h.symm
      have h2 : (a.1 == k') = false := by rw [hak]; exact h1
      rw [List.map_cons, if_pos ha, List.find?_cons_of_neg _ (by simp [h1]),
        List.find?_cons_of_neg _ (by simp [h2])]
      exact ih
    · simp only [List.map_cons, List.find?_cons]
      rw [if_neg ha]
      cases hak' : (a.1 == k') with
      | true => simp [hak']
      | false => simp only [cond_false]; exact ih

theorem dictLookup_dictSet_self {β : Type} (d : List (String × β)) (k : String) (v : β) :
    dictLookup (dictSet d k v) k = some v := by
  unfold dictLookup dictSet
  by_cases h : d.any (fun kv => kv.1 == k)
  · rw [if_pos h, find?_map_overwrite, if_pos h]
    rfl
  · rw [if_neg h, List.find?_append]
    have hnone : d.find? (fun kv => kv.1 == k) = none := by
      rw [List.find?_eq_none]
      intro x hx
      intro habs
      exact h (List.any_eq_true.mpr ⟨x, hx, habs⟩)
    rw [hnone]
    simp [List.find?_cons]

theorem dictLookup_dictSet_other {β : Type} (d : List (String × β)) (k k' : String) (v : β)
    (hne : k' ≠ k) : dictLookup (dictSet d k v) k' = dictLookup d k' := by
  have hbeq : (k' == k) = false := beq_eq_false_iff_ne.mpr hne
  unfold dictLookup dictSet
  by_cases h : d.any (fun kv => kv.1 == k)
  · rw [if_pos h, find?_map_other d k k' v hbeq]
  · rw [if_neg h, List.find?_append]
    have hq : (k == k') = false := by
      rw [beq_eq_false_iff_ne] at hbeq ⊢
      exact fun hh => hbeq hh.symm
    cases hd : d.find? (fun kv => kv.1 == k') with
    | some a => simp
    | none => simp [List.find?_cons, hq]

theorem any_of_dictLookup_isSome {β : Type} (d : List (String × β)) (k : String) (v : β)
    (h : dictLookup d k = some v) : d.any (fun kv => kv.1 == k) = true := by
  unfold dictLookup at h
  cases hf : d.find? (fun kv => kv.1 == k) with
  | none => rw [hf] at h; exact Option.noConfusion h
  | some a =>
    have hp := List.find?_some hf
    exact List.any_eq_true.mpr ⟨a, List.mem_of_find?_eq_some hf, hp⟩

-- Deduplication lemmas.

theorem mem_firstDedupAux {α : Type} [BEq α] [LawfulBEq α] :
    ∀ (l seen : List α) (a : α), a ∈ l → seen.contains a = false →
      a ∈ firstDedupAux l seen
  | [], _, a, ha, _ => absurd ha (List.not_mem_nil a)
  | x :: xs, seen, a, ha, hseen => by
    rw [firstDedupAux]
    rcases List.mem_cons.mp ha with h | h
    · subst h
      rw [hseen]
      simp only [Bool.false_eq_true, if_false]
      exact List.mem_cons_self _ _
    · by_cases hx : seen.contains x
      · rw [if_pos hx]
        exact mem_firstDedupAux xs seen a h hseen
      · rw [if_neg hx]
        by_cases hax : a = x
        · exact hax ▸ List.mem_cons_self _ _
        · refine List.mem_cons_of_mem _ (mem_firstDedupAux xs (x :: seen) a h ?_)
          rw [List.contains_cons, hseen]
          simp [beq_eq_false_iff_ne.mpr hax]

theorem mem_firstDedup {α : Type} [BEq α] [LawfulBEq α] (l : List α) (a : α)
    (ha : a ∈ l) : a ∈ firstDedup l :=
  mem_firstDedupAux l [] a ha rfl

theorem firstDedupAux_subset {α : Type} [BEq α] :
    ∀ (l seen : List α) (a : α), a ∈ firstDedupAux l seen → a ∈ l
  | [], _, a, h => by rw [firstDedupAux] at h; exact absurd h (List.not_mem_nil a)
  | x :: xs, seen, a, h => by
    rw [firstDedupAux] at h
    by_cases hx : seen.contains x
    · rw [if_pos hx] at h
      exact List.mem_cons_of_mem _ (firstDedupAux_subset xs seen a h)
    · rw [if_neg hx] at h
      rcases List.mem_cons.mp h with h | h
      · exact h ▸ List.mem_cons_self _ _
      · exact List.mem_cons_of_mem _ (firstDedupAux_subset xs (x :: seen) a h)

theorem firstDedup_subset {α : Type} [BEq α] (l : List α) (a : α)
    (h : a ∈ firstDedup l) : a ∈ l :=
  firstDedupAux_subset l [] a h

theorem two_mem_length {α : Type} (l : List α) (a b : α) (ha : a ∈ l) (hb : b ∈ l)
    (hne : a ≠ b) : 2 ≤ l.length := by
  match l with
  | [] => exact absurd ha (List.not_mem_nil a)
  | [x] =>
    rw [List.mem_singleton] at ha hb
    exact absurd (ha.trans hb.symm) hne
  | x :: y :: t => simp only [List.length_cons]; omega

-- Claim C1.

/-- Claim C1 (code_bug): the spec requires an unresolvable reference name to
propagate as "no classification available" for the affected query only, and
`parse_blasthits` indeed handles a falsy LCA result that way; but whenever
the input names contain at least one resolvable and at least one
unresolvable name, the distinct resolutions `{node, None}` survive
deduplication, the single-node early return is skipped, `get_path(None)`
returns `None`, and `sorted(..., key=len)` evaluates `len(None)` — an
uncaught `TypeError` that terminates the whole batch instead of yielding a
no-classification result. -/
theorem C1_mixed_resolution_raises (node_names : List (String × Pos))
    (names : List String) (n m : String) (p : Pos)
    (hn : n ∈ names) (hres : dictLookup node_names n = some p)
    (hm : m ∈ names) (hnores : dictLookup node_names m = none) :
    get_common_ancestor node_names names = Except.error () := by
  unfold get_common_ancestor
  have hsome : some p ∈ names.map (fun x => dictLookup node_names x) :=
    List.mem_map.mpr ⟨n, hn, hres⟩
  have hnone : (none : Option Pos) ∈ names.map (fun x => dictLookup node_names x) :=
    List.mem_map.mpr ⟨m, hm, hnores⟩
  have h1 : some p ∈ firstDedup (names.map (fun x => dictLookup node_names x)) :=
    mem_firstDedup _ _ hsome
  have h2 : (none : Option Pos) ∈ firstDedup (names.map (fun x => dictLookup node_names x)) :=
    mem_firstDedup _ _ hnone
  have hlen : 2 ≤ (firstDedup (names.map (fun x => dictLookup node_names x))).length :=
    two_mem_length _ _ _ h1 h2 (by simp)
  rw [if_neg (by omega)]
  have hany :
      ((firstDedup (names.map (fun x => dictLookup node_names x))).map
        (fun nd => nd.bind (fun q => get_path q))).any (fun op => op.isNone) = true := by
    rw [List.any_eq_true]
    exact ⟨none, List.mem_map.mpr ⟨none, h2, rfl⟩, rfl⟩
  rw [if_pos hany]

/-- Witness for C1, and the failing input itself: in a tree where only "A"
is registered, `get_common_ancestor(["A", "ZZZ"])` raises. -/
theorem C1_mixed_resolution_raises_witness :
    get_common_ancestor exNames ["A", "ZZZ"] = Except.error () :=
  C1_mixed_resolution_raises exNames ["A", "ZZZ"] "A" "ZZZ" [1]
    (by simp) rfl (by simp) rfl

-- Claim C3.

theorem ancChain_consecutive (p : Pos) (i : Nat) (a b : Pos)
    (hia : (ancChain p).get? i = some a) (hib : (ancChain p).get? (i + 1) = some b) :
    get_parent b = some a := by
  have hlt : i + 1 < (ancChain p).length := by
    by_contra hge
    rw [List.get?_eq_none.mpr (by omega)] at hib
    exact Option.noConfusion hib
  rw [ancChain_length] at hlt
  rw [ancChain_get? p i (by omega)] at hia
  rw [ancChain_get? p (i + 1) (by omega)] at hib
  have ha : a = p.take (i + 1) := Option.some.inj hia |>.symm
  have hb : b = p.take (i + 2) := Option.some.inj hib |>.symm
  have hbne : b ≠ [] := by
    rw [hb]
    intro habs
    have : (p.take (i + 2)).length = 0 := by rw [habs]; rfl
    rw [List.length_take] at this
    omega
  rw [get_parent, if_neg hbne, hb, ha]
  congr 1
  rw [List.dropLast_eq_take, List.length_take, List.take_take]
  congr 1
  omega

/-- Claim C3 (counterexample): `[0]` is a node of `exTree` (the "No hits"
child of the root), every ancestor parent resolves, and `get_path [0]`
returns `[[0]]` — a chain whose first element is the node itself, not the
tree root `[]`: `get_path` excludes the root. -/
theorem C3_counterexample :
    (subclade exTree [0]).isSome = true ∧
    get_path [0] = some [[0]] ∧ ([0] : Pos) ≠ ([] : Pos) :=
  ⟨rfl, rfl, by simp⟩

/-- Claim C3 (amended): for every node of the tree, `get_path` succeeds and
returns the ordered ancestor chain *excluding the root*: for a non-root node
the chain is `ancChain p` (`[p.take 1, …, p]`), whose first element is the
node's depth-1 ancestor (the root's immediate child on its branch), whose
last element is the node itself, which never contains the root, and whose
consecutive elements are parent and child; for the root itself the result is
`[root]`. -/
theorem C3_amended_path_chain (t : Clade) (p : Pos)
    (hv : (subclade t p).isSome) (hp : p ≠ []) :
    get_path ([] : Pos) = some [[]] ∧
    get_path p = some (ancChain p) ∧
    (ancChain p).head? = some (p.take 1) ∧
    (ancChain p).getLast? = some p ∧
    ([] : Pos) ∉ ancChain p ∧
    (∀ (i : Nat) (a b : Pos), (ancChain p).get? i = some a →
      (ancChain p).get? (i + 1) = some b → get_parent b = some a) :=
  ⟨get_path_root, get_path_eq_ancChain p hp, ancChain_head? p hp,
    ancChain_getLast? p hp, root_not_mem_ancChain p,
    fun i a b hia hib => ancChain_consecutive p i a b hia hib⟩

/-- Witness for the amended C3 at the node `[1]` of `exTree`. -/
theorem C3_amended_path_chain_witness :
    get_path [1] = some (ancChain [1]) ∧ (ancChain [1]).getLast? = some [1] :=
  ⟨(C3_amended_path_chain exTree [1] rfl (by simp)).2.1,
    (C3_amended_path_chain exTree [1] rfl (by simp)).2.2.2.1⟩

-- Claim C9.

theorem euk_branch_of_get?_some (t : Clade) (nh p second : Pos)
    (h : (get_path p).bind (fun pth => pth.get? 1) = some second) :
    euk_branch t nh p =
      Except.ok (if nodeName t second = some "Eukaryota" then nh else p) := by
  rw [euk_branch, h, apply_ite (Except.ok : Pos → Except Unit Pos)]

theorem euk_branch_of_get?_none (t : Clade) (nh p : Pos)
    (h : (get_path p).bind (fun pth => pth.get? 1) = none) :
    euk_branch t nh p = Except.error () := by
  rw [euk_branch, h]

theorem euk_get?_eq (t : Clade) (p : Pos) (hlen : 2 ≤ p.length) :
    (get_path p).bind (fun pth => pth.get? 1) = some (p.take 2) := by
  have hp : p ≠ [] := by
    intro habs; rw [habs] at hlen; simp at hlen
  rw [get_path_eq_ancChain p hp, Option.some_bind, ancChain_get? p 1 (by omega)]

theorem euk_get?_short (p : Pos) (hlen : p.length ≤ 1) :
    (get_path p).bind (fun pth => pth.get? 1) = none := by
  by_cases hp : p = []
  · subst hp; rw [get_path_root]; rfl
  · rw [get_path_eq_ancChain p hp, Option.some_bind,
      List.get?_eq_none.mpr (by rw [ancChain_length]; omega)]

/-- Claim C9 (confirmed): the eukaryote filter's unguarded access
`get_path(lca_node)[1]` is in bounds exactly when the path has at least two
elements; since the path excludes the root, that is exactly when the climbed
node sits at depth two or more, and for a climbed node that is the root or
an immediate child of the root the access is out of bounds and classifying
the query fails. -/
theorem C9_euk_index_bounds (t : Clade) (nh p : Pos) :
    ((∃ r, euk_branch t nh p = Except.ok r) ↔
      (∃ pth, get_path p = some pth ∧ 2 ≤ pth.length)) ∧
    (p.length ≤ 1 → euk_branch t nh p = Except.error ()) := by
  constructor
  · constructor
    · intro ⟨r, hr⟩
      by_cases hlen : 2 ≤ p.length
      · have hp : p ≠ [] := by
          intro habs; rw [habs] at hlen; simp at hlen
        exact ⟨ancChain p, get_path_eq_ancChain p hp, by rw [ancChain_length]; omega⟩
      · rw [euk_branch_of_get?_none t nh p (euk_get?_short p (by omega))] at hr
        exact Except.noConfusion hr
    · rintro ⟨pth, hpth, h2⟩
      have hlen : 2 ≤ p.length := by
        by_cases hp : p = []
        · rw [hp, get_path_root] at hpth
          have : pth = [[]] := Option.some.inj hpth.symm
          rw [this] at h2; simp at h2
        · rw [get_path_eq_ancChain p hp] at hpth
          have : pth = ancChain p := Option.some.inj hpth.symm
          rw [this, ancChain_length] at h2; exact h2
      exact ⟨_, euk_branch_of_get?_some t nh p (p.take 2) (euk_get?_eq t p hlen)⟩
  · intro h1
    exact euk_branch_of_get?_none t nh p (euk_get?_short p h1)

/-- Witness for C9: for the climbed node `[0]` (an immediate child of the
root of `exTree`) the filter's index access is out of bounds. -/
theorem C9_euk_index_bounds_witness :
    euk_branch exTree [0] [0] = Except.error () :=
  (C9_euk_index_bounds exTree [0] [0]).2 (by simp)

-- Claim C2.

/-- Claim C2 (counterexample): in `exTreeEuk` the resolved node `[1, 0]`
(named "X") has top-level ancestor `[1]` (excluding root) named "Eukaryota",
so the claim demands the no-hits override; but the code tests index 1 of the
root-exclusive path — the depth-2 ancestor, here the node "X" itself — and
stores the climbed node unchanged. -/
theorem C2_counterexample :
    nodeName exTreeEuk (([1, 0] : Pos).take 1) = some "Eukaryota" ∧
    euk_branch exTreeEuk [0] [1, 0] = Except.ok [1, 0] ∧
    (Except.ok ([1, 0] : Pos) : Except Unit Pos) ≠ Except.ok ([0] : Pos) :=
  ⟨rfl, rfl, by simp⟩

/-- Claim C2 (amended): when the eukaryote filter is enabled and the climbed
node's path has at least two elements, the classification is overridden to
the no-hits sentinel exactly when the *second element of the root-exclusive
path* — the node's depth-2 ancestor `p.take 2` (the root's grandchild on its
branch), not the root's immediate child — is named "Eukaryota"; every other
such node's climbed classification is stored unchanged. -/
theorem C2_amended_euk_filter (t : Clade) (nh p : Pos) (hlen : 2 ≤ p.length) :
    euk_branch t nh p =
      Except.ok (if nodeName t (p.take 2) = some "Eukaryota" then nh else p) :=
  euk_branch_of_get?_some t nh p (p.take 2) (euk_get?_eq t p hlen)

/-- Witness for the amended C2: in `exTreeEuk2` the node `[1, 0, 0]` has
depth-2 ancestor `[1, 0]` named "Eukaryota", and the filter overrides to the
no-hits sentinel `[0]`. -/
theorem C2_amended_euk_filter_witness :
    euk_branch exTreeEuk2 [0] [1, 0, 0] = Except.ok ([0] : Pos) := by
  rw [C2_amended_euk_filter exTreeEuk2 [0] [1, 0, 0] (by simp)]
  rfl

-- Claim C6.

theorem climb_succ_none (t : Clade) (amin : List (String × Rat)) (w : Rat)
    (fuel : Nat) (p : Pos)
    (h : (nodeName t p).bind (fun nm => dictLookup amin nm) = none) :
    climb t amin w (fuel + 1) p = p := by
  rw [climb, h]

theorem climb_succ_stop (t : Clade) (amin : List (String × Rat)) (w : Rat)
    (fuel : Nat) (p : Pos) (thr : Rat)
    (h : (nodeName t p).bind (fun nm => dictLookup amin nm) = some thr)
    (hnc : ¬ (w < thr ∧ p ≠ [])) :
    climb t amin w (fuel + 1) p = p := by
  rw [climb, h]
  show (if w < thr ∧ p ≠ [] then
      match get_parent p with
      | some q => climb t amin w fuel q
      | none => p
    else p) = p
  rw [if_neg hnc]

theorem climb_succ_step (t : Clade) (amin : List (String × Rat)) (w : Rat)
    (fuel : Nat) (p : Pos) (thr : Rat)
    (h : (nodeName t p).bind (fun nm => dictLookup amin nm) = some thr)
    (hlt : w < thr) (hp : p ≠ []) :
    climb t amin w (fuel + 1) p = climb t amin w fuel p.dropLast := by
  rw [climb, h]
  show (if w < thr ∧ p ≠ [] then
      match get_parent p with
      | some q => climb t amin w fuel q
      | none => p
    else p) = climb t amin w fuel p.dropLast
  rw [if_pos ⟨hlt, hp⟩, get_parent, if_neg hp]

theorem climb_root (t : Clade) (amin : List (String × Rat)) (w : Rat) (fuel : Nat) :
    climb t amin w fuel [] = [] := by
  cases fuel with
  | zero => rfl
  | succ f =>
    cases h : (nodeName t []).bind (fun nm => dictLookup amin nm) with
    | none => exact climb_succ_none t amin w f [] h
    | some thr => exact climb_succ_stop t amin w f [] thr h (by simp)

theorem climb_no_threshold (t : Clade) (amin : List (String × Rat)) (w : Rat)
    (fuel : Nat) (p : Pos)
    (h : (nodeName t p).bind (fun nm => dictLookup amin nm) = none) :
    climb t amin w fuel p = p := by
  cases fuel with
  | zero => rfl
  | succ f => exact climb_succ_none t amin w f p h

theorem climb_take (t : Clade) (amin : List (String × Rat)) (w : Rat) :
    ∀ (fuel : Nat) (p : Pos), ∃ k, k ≤ p.length ∧ climb t amin w fuel p = p.take k := by
  intro fuel
  induction fuel with
  | zero => exact fun p => ⟨p.length, le_refl _, by rw [climb, List.take_length]⟩
  | succ f ih =>
    intro p
    cases h : (nodeName t p).bind (fun nm => dictLookup amin nm) with
    | none =>
      exact ⟨p.length, le_refl _, by
        rw [climb_succ_none t amin w f p h, List.take_length]⟩
    | some thr =>
      by_cases hc : w < thr ∧ p ≠ []
      · obtain ⟨k, hk, heq⟩ := ih p.dropLast
        refine ⟨k, ?_, ?_⟩
        · rw [List.length_dropLast] at hk; omega
        · rw [climb_succ_step t amin w f p thr h hc.1 hc.2, heq,
            List.dropLast_eq_take, List.take_take]
          congr 1
          rw [List.length_dropLast] at hk
          omega
      · exact ⟨p.length, le_refl _, by
          rw [climb_succ_stop t amin w f p thr h hc, List.take_length]⟩

theorem climb_moves_only_if (t : Clade) (amin : List (String × Rat)) (w : Rat)
    (fuel : Nat) (p : Pos) (h : climb t amin w fuel p ≠ p) :
    ∃ thr, (nodeName t p).bind (fun nm => dictLookup amin nm) = some thr ∧
      w < thr ∧ p ≠ [] := by
  cases fuel with
  | zero => exact absurd rfl h
  | succ f =>
    cases hm : (nodeName t p).bind (fun nm => dictLookup amin nm) with
    | none => exact absurd (climb_succ_none t amin w f p hm) h
    | some thr =>
      by_cases hc : w < thr ∧ p ≠ []
      · exact ⟨thr, rfl, hc.1, hc.2⟩
      · exact absurd (climb_succ_stop t amin w f p thr hm hc) h

theorem climb_fuel_sufficient (t : Clade) (amin : List (String × Rat)) (w : Rat) :
    ∀ (fuel : Nat) (p : Pos), p.length ≤ fuel →
      climb t amin w fuel p = climb t amin w p.length p := by
  intro fuel
  induction fuel with
  | zero =>
    intro p hp
    have hnil : p = [] := List.length_eq_zero.mp (by omega)
    rw [hnil]
    rfl
  | succ f ih =>
    intro p hp
    by_cases hne : p = []
    · rw [hne, climb_root, climb_root]
    · cases hm : (nodeName t p).bind (fun nm => dictLookup amin nm) with
      | none => rw [climb_no_threshold t amin w _ p hm, climb_no_threshold t amin w _ p hm]
      | some thr =>
        obtain ⟨m, hmlen⟩ : ∃ m, p.length = m + 1 :=
          ⟨p.length - 1, by have := List.length_pos.mpr hne; omega⟩
        by_cases hlt : w < thr
        · rw [climb_succ_step t amin w f p thr hm hlt hne, hmlen,
            climb_succ_step t amin w m p thr hm hlt hne]
          have hdl : p.dropLast.length = m := by rw [List.length_dropLast]; omega
          rw [ih p.dropLast (by omega), hdl]
        · rw [climb_succ_stop t amin w f p thr hm (fun hcc => hlt hcc.1), hmlen,
            climb_succ_stop t amin w m p thr hm (fun hcc => hlt hcc.1)]

/-- Claim C6 (confirmed): threshold-gated climbing never moves past the tree
root — from the root it does not move at all, and from any node the result is
an ancestor-or-self prefix of the node's position; the candidate is replaced
by its parent only when it has a registered `assignment_min`, the weakest
retained identity is below that threshold, and the candidate is not the
root; and a starting node with no registered threshold is returned with no
movement. -/
theorem C6_climbing_bounded (t : Clade) (amin : List (String × Rat)) (w : Rat)
    (fuel : Nat) (p : Pos) :
    climb t amin w fuel [] = [] ∧
    ((nodeName t p).bind (fun nm => dictLookup amin nm) = none →
      climb t amin w fuel p = p) ∧
    (∃ k, k ≤ p.length ∧ climb t amin w fuel p = p.take k) ∧
    (climb t amin w fuel p ≠ p →
      ∃ thr, (nodeName t p).bind (fun nm => dictLookup amin nm) = some thr ∧
        w < thr ∧ p ≠ []) :=
  ⟨climb_root t amin w fuel, climb_no_threshold t amin w fuel p,
    climb_take t amin w fuel p, climb_moves_only_if t amin w fuel p⟩

/-- Witness for C6: the node `[0]` of `exTree` ("No hits") has no registered
threshold in an empty `assignment_min`, so climbing returns it unmoved. -/
theorem C6_climbing_bounded_witness :
    climb exTree [] 0 1 [0] = [0] :=
  (C6_climbing_bounded exTree [] 0 1 [0]).2.1 rfl

-- Claim C4.

theorem processRow_found (node_ids : String → Option Pos) (st : BuildState)
    (row : MapRow) (n : Pos) (hn : node_ids row.node_id = some n) :
    processRow node_ids st row =
      if 0 ≤ row.similarity_cutoff ∧ isAccession row.name = false then
        { tree := renameAt st.tree n row.name,
          node_names := dictSet st.node_names row.name n,
          assignment_min := dictSet st.assignment_min row.name row.similarity_cutoff }
      else
        { tree := st.tree,
          node_names := dictSet st.node_names row.name n,
          assignment_min := st.assignment_min } := by
  unfold processRow
  rw [hn]

theorem nodeName_renameAt (t : Clade) (p : Pos) (s : String)
    (hv : (subclade t p).isSome) : nodeName (renameAt t p s) p = some s := by
  induction p generalizing t with
  | nil => cases t with | node nm cs => rfl
  | cons i q ih =>
    cases t with
    | node nm cs =>
      simp only [subclade, Clade.clades] at hv
      cases hget : cs.get? i with
      | none => rw [hget] at hv; simp at hv
      | some ci =>
        rw [hget] at hv
        have hlt : i < cs.length := by
          by_contra hge
          rw [List.get?_eq_none.mpr (by omega)] at hget
          exact Option.noConfusion hget
        rw [renameAt, hget]
        have hset : (cs.set i (renameAt ci q s)).get? i = some (renameAt ci q s) := by
          rw [List.get?_eq_getElem?]
          exact List.getElem?_set_eq_of_lt _ hlt
        unfold nodeName subclade
        simp only [Clade.clades, hset]
        exact ih ci hv

/-- Claim C4 (counterexample): the row `("n1", "Foo", -1)` has a
non-accession name and a negative cutoff, so the claim's "unless accession
AND cutoff ≥ 0" condition for renaming is not met and the claim demands the
rename and `assignment_min["Foo"] = -1`; but the code's guard is
`similarity_cutoff >= 0 and not accession`, so neither happens — the name is
only registered in the index. -/
theorem C4_counterexample :
    ¬ (isAccession "Foo" = true ∧ (0 : Rat) ≤ -1) ∧
    (processRow exNodeIds exSt0 ⟨"n1", "Foo", -1⟩).assignment_min = [] ∧
    (processRow exNodeIds exSt0 ⟨"n1", "Foo", -1⟩).tree = exTree0 ∧
    (processRow exNodeIds exSt0 ⟨"n1", "Foo", -1⟩).node_names = [("Foo", [0])] := by
  refine ⟨?_, rfl, rfl, rfl⟩
  rintro ⟨-, habs⟩
  norm_num at habs

/-- Claim C4 (amended): for every mapping row whose id resolves to a node of
the tree, the row's name is registered in the name index; the node is
renamed to the name and `assignment_min[name]` is set to the cutoff exactly
when the cutoff is nonnegative AND the name is not an accession — otherwise
(in particular for any negative cutoff, accession or not) the tree and
`assignment_min` are left untouched. -/
theorem C4_amended_map_row (node_ids : String → Option Pos) (st : BuildState)
    (row : MapRow) (n : Pos) (hn : node_ids row.node_id = some n)
    (hv : (subclade st.tree n).isSome) :
    dictLookup (processRow node_ids st row).node_names row.name = some n ∧
    (0 ≤ row.similarity_cutoff ∧ isAccession row.name = false →
      dictLookup (processRow node_ids st row).assignment_min row.name =
        some row.similarity_cutoff ∧
      nodeName (processRow node_ids st row).tree n = some row.name) ∧
    (¬ (0 ≤ row.similarity_cutoff ∧ isAccession row.name = false) →
      (processRow node_ids st row).tree = st.tree ∧
      (processRow node_ids st row).assignment_min = st.assignment_min) := by
  rw [processRow_found node_ids st row n hn]
  by_cases hcond : 0 ≤ row.similarity_cutoff ∧ isAccession row.name = false
  · rw [if_pos hcond]
    refine ⟨dictLookup_dictSet_self _ _ _, fun _ => ?_, fun habs => absurd hcond habs⟩
    exact ⟨dictLookup_dictSet_self _ _ _, nodeName_renameAt st.tree n row.name hv⟩
  · rw [if_neg hcond]
    exact ⟨dictLookup_dictSet_self _ _ _, fun hyes => absurd hyes hcond,
      fun _ => ⟨rfl, rfl⟩⟩

/-- Witness for the amended C4: the row `("n1", "Foo", 5)` renames node
`[0]` and records the threshold. -/
theorem C4_amended_map_row_witness :
    dictLookup (processRow exNodeIds exSt0 ⟨"n1", "Foo", 5⟩).assignment_min "Foo" =
      some 5 ∧
    nodeName (processRow exNodeIds exSt0 ⟨"n1", "Foo", 5⟩).tree [0] = some "Foo" :=
  (C4_amended_map_row exNodeIds exSt0 ⟨"n1", "Foo", 5⟩ [0] rfl rfl).2.1
    ⟨by norm_num, rfl⟩

-- Claim C7.

/-- Claim C7 (counterexample): two mapping rows carry the same name "X" for
different resolvable ids "n1" (node `[0]`) and "n2" (node `[1]`): the claim
says the second registration is logged and skipped with `[0]` kept; but the
map-file loop performs a plain dict assignment, silently rebinding the name
index to `[1]`. -/
theorem C7_counterexample :
    dictLookup (processRow exNodeIds (processRow exNodeIds exSt0 ⟨"n1", "X", 5⟩)
      ⟨"n2", "X", 7⟩).node_names "X" = some [1] ∧
    some ([1] : Pos) ≠ some ([0] : Pos) :=
  ⟨rfl, by simp⟩

/-- Claim C7 (amended): a duplicate name through `add_node` is logged and
skipped with the state untouched (first registration wins); but a mapping
row whose name duplicates an earlier registration silently *rebinds* the
name index to the row's node (last registration wins there). -/
theorem C7_amended_duplicate_names (st : BuildState) (nodename : String)
    (parent : NodeRef) (amin : Rat) (node_ids : String → Option Pos)
    (row : MapRow) (n : Pos)
    (hdup : (dictLookup st.node_names nodename).isSome)
    (hn : node_ids row.node_id = some n) :
    add_node st nodename parent amin = (none, st) ∧
    dictLookup (processRow node_ids st row).node_names row.name = some n := by
  constructor
  · rw [add_node, if_pos hdup]
  · rw [processRow_found node_ids st row n hn]
    by_cases hcond : 0 ≤ row.similarity_cutoff ∧ isAccession row.name = false
    · rw [if_pos hcond]
      exact dictLookup_dictSet_self _ _ _
    · rw [if_neg hcond]
      exact dictLookup_dictSet_self _ _ _

/-- Witness for the amended C7: with "X" already bound to `[0]`, `add_node`
refuses a second "X", while the map row `("n2", "X", 7)` rebinds it to `[1]`. -/
theorem C7_amended_duplicate_names_witness :
    add_node ⟨exTree0, [("X", [0])], []⟩ "X" (NodeRef.ref []) 0 =
      (none, ⟨exTree0, [("X", [0])], []⟩) ∧
    dictLookup (processRow exNodeIds ⟨exTree0, [("X", [0])], []⟩
      ⟨"n2", "X", 7⟩).node_names "X" = some [1] :=
  C7_amended_duplicate_names ⟨exTree0, [("X", [0])], []⟩ "X" (NodeRef.ref []) 0
    exNodeIds ⟨"n2", "X", 7⟩ [1] rfl rfl

-- Claim C8.

theorem tax_step_eq (t : Clade) (tax : List (String × String)) (q : Pos) :
    tax_step t tax q =
      if 1 < q.length ∧ q.length < 11 ∧ ¬ q.length = 3 ∧ ¬ q.length = 4 then
        match nodeName t q with
        | none => none
        | some nm => some (dictSet tax (abb q.length) (underscore nm))
      else some tax := by
  rw [tax_step, get_depth_eq_length]

theorem dictSet_tax_k (a1 a2 a3 a4 a5 a6 a7 v : String) :
    dictSet [("k", a1), ("p", a2), ("c", a3), ("o", a4), ("f", a5), ("g", a6), ("s", a7)]
      "k" v =
      [("k", v), ("p", a2), ("c", a3), ("o", a4), ("f", a5), ("g", a6), ("s", a7)] := rfl

theorem dictSet_tax_p (a1 a2 a3 a4 a5 a6 a7 v : String) :
    dictSet [("k", a1), ("p", a2), ("c", a3), ("o", a4), ("f", a5), ("g", a6), ("s", a7)]
      "p" v =
      [("k", a1), ("p", v), ("c", a3), ("o", a4), ("f", a5), ("g", a6), ("s", a7)] := rfl

theorem dictSet_tax_c (a1 a2 a3 a4 a5 a6 a7 v : String) :
    dictSet [("k", a1), ("p", a2), ("c", a3), ("o", a4), ("f", a5), ("g", a6), ("s", a7)]
      "c" v =
      [("k", a1), ("p", a2), ("c", v), ("o", a4), ("f", a5), ("g", a6), ("s", a7)] := rfl

theorem dictSet_tax_o (a1 a2 a3 a4 a5 a6 a7 v : String) :
    dictSet [("k", a1), ("p", a2), ("c", a3), ("o", a4), ("f", a5), ("g", a6), ("s", a7)]
      "o" v =
      [("k", a1), ("p", a2), ("c", a3), ("o", v), ("f", a5), ("g", a6), ("s", a7)] := rfl

theorem dictSet_tax_f (a1 a2 a3 a4 a5 a6 a7 v : String) :
    dictSet [("k", a1), ("p", a2), ("c", a3), ("o", a4), ("f", a5), ("g", a6), ("s", a7)]
      "f" v =
      [("k", a1), ("p", a2), ("c", a3), ("o", a4), ("f", v), ("g", a6), ("s", a7)] := rfl

theorem dictSet_tax_g (a1 a2 a3 a4 a5 a6 a7 v : String) :
    dictSet [("k", a1), ("p", a2), ("c", a3), ("o", a4), ("f", a5), ("g", a6), ("s", a7)]
      "g" v =
      [("k", a1), ("p", a2), ("c", a3), ("o", a4), ("f", a5), ("g", v), ("s", a7)] := rfl

theorem dictSet_tax_s (a1 a2 a3 a4 a5 a6 a7 v : String) :
    dictSet [("k", a1), ("p", a2), ("c", a3), ("o", a4), ("f", a5), ("g", a6), ("s", a7)]
      "s" v =
      [("k", a1), ("p", a2), ("c", a3), ("o", a4), ("f", a5), ("g", a6), ("s", v)] := rfl

theorem slotVal_concat (t : Clade) (q : Pos) (i : Nat) (d : Nat)
    (hd : d ≠ q.length + 1) : slotVal t (q ++ [i]) d = slotVal t q d := by
  have hlen : (q ++ [i]).length = q.length + 1 := by simp
  by_cases hle : d ≤ q.length
  · rw [slotVal, slotVal, if_pos (by omega : d ≤ (q ++ [i]).length), if_pos hle,
      List.take_append_of_le_length hle]
  · rw [slotVal, slotVal, if_neg (by omega : ¬ d ≤ (q ++ [i]).length), if_neg hle]

theorem slotVal_eq_name (t : Clade) (p : Pos) (d : Nat) (c : Clade)
    (hc : subclade t p = some c) (hd : d = p.length) :
    slotVal t p d = underscore c.name := by
  subst hd
  rw [slotVal, if_pos (le_refl _), List.take_length, hc]
  rfl

theorem tax_step_eq_some (t : Clade) (tax : List (String × String)) (q : Pos)
    (nm : String)
    (hguard : 1 < q.length ∧ q.length < 11 ∧ ¬ q.length = 3 ∧ ¬ q.length = 4)
    (hnm : nodeName t q = some nm) :
    tax_step t tax q = some (dictSet tax (abb q.length) (underscore nm)) := by
  rw [tax_step_eq, if_pos hguard, hnm]

theorem tax_step_taxClosed (t : Clade) (q : Pos) (i : Nat)
    (hv : (subclade t (q ++ [i])).isSome) :
    tax_step t (taxClosed t q) (q ++ [i]) = some (taxClosed t (q ++ [i])) := by
  have hlen : (q ++ [i]).length = q.length + 1 := by simp
  obtain ⟨c, hc⟩ := Option.isSome_iff_exists.mp hv
  have hnm : nodeName t (q ++ [i]) = some c.name := by rw [nodeName, hc]; rfl
  by_cases hguard : 1 < (q ++ [i]).length ∧ (q ++ [i]).length < 11 ∧
      ¬ (q ++ [i]).length = 3 ∧ ¬ (q ++ [i]).length = 4
  · rw [tax_step_eq_some t (taxClosed t q) (q ++ [i]) c.name hguard hnm]
    refine congrArg some ?_
    have hcase : (q ++ [i]).length = 2 ∨ (q ++ [i]).length = 5 ∨ (q ++ [i]).length = 6 ∨
        (q ++ [i]).length = 7 ∨ (q ++ [i]).length = 8 ∨ (q ++ [i]).length = 9 ∨
        (q ++ [i]).length = 10 := by
      omega
    rcases hcase with h | h | h | h | h | h | h
    · rw [show abb (q ++ [i]).length = abb 2 from by rw [h]]
      rw [show abb 2 = "k" from rfl]
      simp only [taxClosed]
      rw [dictSet_tax_k]
      rw [slotVal_concat t q i 5 (by omega), slotVal_concat t q i 6 (by omega),
        slotVal_concat t q i 7 (by omega), slotVal_concat t q i 8 (by omega),
        slotVal_concat t q i 9 (by omega), slotVal_concat t q i 10 (by omega),
        slotVal_eq_name t (q ++ [i]) 2 c hc h.symm]
    · rw [show abb (q ++ [i]).length = abb 5 from by rw [h]]
      rw [show abb 5 = "p" from rfl]
      simp only [taxClosed]
      rw [dictSet_tax_p]
      rw [slotVal_concat t q i 2 (by omega), slotVal_concat t q i 6 (by omega),
        slotVal_concat t q i 7 (by omega), slotVal_concat t q i 8 (by omega),
        slotVal_concat t q i 9 (by omega), slotVal_concat t q i 10 (by omega),
        slotVal_eq_name t (q ++ [i]) 5 c hc h.symm]
    · rw [show abb (q ++ [i]).length = abb 6 from by rw [h]]
      rw [show abb 6 = "c" from rfl]
      simp only [taxClosed]
      rw [dictSet_tax_c]
      rw [slotVal_concat t q i 2 (by omega), slotVal_concat t q i 5 (by omega),
        slotVal_concat t q i 7 (by omega), slotVal_concat t q i 8 (by omega),
        slotVal_concat t q i 9 (by omega), slotVal_concat t q i 10 (by omega),
        slotVal_eq_name t (q ++ [i]) 6 c hc h.symm]
    · rw [show abb (q ++ [i]).length = abb 7 from by rw [h]]
      rw [show abb 7 = "o" from rfl]
      simp only [taxClosed]
      rw [dictSet_tax_o]
      rw [slotVal_concat t q i 2 (by omega), slotVal_concat t q i 5 (by omega),
        slotVal_concat t q i 6 (by omega), slotVal_concat t q i 8 (by omega),
        slotVal_concat t q i 9 (by omega), slotVal_concat t q i 10 (by omega),
        slotVal_eq_name t (q ++ [i]) 7 c hc h.symm]
    · rw [show abb (q ++ [i]).length = abb 8 from by rw [h]]
      rw [show abb 8 = "f" from rfl]
      simp only [taxClosed]
      rw [dictSet_tax_f]
      rw [slotVal_concat t q i 2 (by omega), slotVal_concat t q i 5 (by omega),
        slotVal_concat t q i 6 (by omega), slotVal_concat t q i 7 (by omega),
        slotVal_concat t q i 9 (by omega), slotVal_concat t q i 10 (by omega),
        slotVal_eq_name t (q ++ [i]) 8 c hc h.symm]
    · rw [show abb (q ++ [i]).length = abb 9 from by rw [h]]
      rw [show abb 9 = "g" from rfl]
      simp only [taxClosed]
      rw [dictSet_tax_g]
      rw [slotVal_concat t q i 2 (by omega), slotVal_concat t q i 5 (by omega),
        slotVal_concat t q i 6 (by omega), slotVal_concat t q i 7 (by omega),
        slotVal_concat t q i 8 (by omega), slotVal_concat t q i 10 (by omega),
        slotVal_eq_name t (q ++ [i]) 9 c hc h.symm]
    · rw [show abb (q ++ [i]).length = abb 10 from by rw [h]]
      rw [show abb 10 = "s" from rfl]
      simp only [taxClosed]
      rw [dictSet_tax_s]
      rw [slotVal_concat t q i 2 (by omega), slotVal_concat t q i 5 (by omega),
        slotVal_concat t q i 6 (by omega), slotVal_concat t q i 7 (by omega),
        slotVal_concat t q i 8 (by omega), slotVal_concat t q i 9 (by omega),
        slotVal_eq_name t (q ++ [i]) 10 c hc h.symm]
  · rw [tax_step_eq, if_neg hguard]
    refine congrArg some ?_
    simp only [taxClosed]
    rw [slotVal_concat t q i 2 (by omega), slotVal_concat t q i 5 (by omega),
      slotVal_concat t q i 6 (by omega), slotVal_concat t q i 7 (by omega),
      slotVal_concat t q i 8 (by omega), slotVal_concat t q i 9 (by omega),
      slotVal_concat t q i 10 (by omega)]

theorem foldl_tax_closed (t : Clade) :
    ∀ (p : Pos), (subclade t p).isSome →
      (ancChain p).foldlM (tax_step t) taxInit = some (taxClosed t p) := by
  intro p
  induction p using List.reverseRecOn with
  | nil => intro _; rfl
  | append_singleton q i ih =>
    intro hv
    have hvq : (subclade t q).isSome := by
      have h := subclade_take_isSome t (q ++ [i]) q.length hv
      rwa [List.take_left] at h
    rw [ancChain_concat _ (by simp), List.foldlM_append, List.dropLast_concat, ih hvq]
    have hstep := tax_step_taxClosed t q i hv
    simp [List.foldlM_cons, List.foldlM_nil, hstep]

theorem get_taxonomy_some_path (t : Clade) (p : Pos) (pth : List Pos)
    (h : get_path p = some pth) :
    get_taxonomy t (some p) = pth.foldlM (tax_step t) taxInit := by
  show (match get_path p with
    | none => none
    | some pth2 => pth2.foldlM (tax_step t) taxInit) = pth.foldlM (tax_step t) taxInit
  rw [h]

theorem get_taxonomy_closed (t : Clade) (p : Pos) (hv : (subclade t p).isSome) :
    get_taxonomy t (some p) = some (taxClosed t p) := by
  by_cases hp : p = []
  · subst hp; rfl
  · rw [get_taxonomy_some_path t p (ancChain p) (get_path_eq_ancChain p hp)]
    exact foldl_tax_closed t p hv

/-- Claim C8 (counterexample): in `exTreeTax` the node `[1, 0, 0]` sits at
superkingdom depth (3) and is named "SuperK"; the claim says superkingdom and
kingdom depth ancestors are collapsed into the `k` slot, but the code skips
those two depths entirely: the rendered `k` slot holds the domain-depth
ancestor's name "Dom", and "SuperK" appears in no slot of the record. -/
theorem C8_counterexample :
    get_taxonomy exTreeTax (some [1, 0, 0]) =
      some [("k", "Dom"), ("p", "?"), ("c", "?"), ("o", "?"), ("f", "?"), ("g", "?"),
        ("s", "?")] ∧
    ("SuperK" : String) ≠ "Dom" :=
  ⟨rfl, by decide⟩

/-- Claim C8 (amended): rendering a node of the tree produces the fixed
ordered seven-slot record `k p c o f g s`; the slot at abbreviation `abb d`
is filled with the space-to-underscore-normalized name of the node's
depth-`d` ancestor for `d` in `{2, 5, 6, 7, 8, 9, 10}` only (and `"?"` when
the node is shallower than `d`): ancestors at the superkingdom and kingdom
depths (3 and 4) are *omitted entirely* — they fill no slot, and the `k`
slot holds only the domain-depth (2) ancestor, whose abbreviation is fixed
to `k`; no kingdom slot is ever created. -/
theorem C8_amended_rendering (t : Clade) (p : Pos)
    (hv : (subclade t p).isSome) :
    get_taxonomy t (some p) = some (taxClosed t p) ∧
    (taxClosed t p).map Prod.fst = ["k", "p", "c", "o", "f", "g", "s"] ∧
    abb 2 = "k" :=
  ⟨get_taxonomy_closed t p hv, rfl, rfl⟩

/-- Witness for the amended C8 at the superkingdom-depth node `[1, 0, 0]` of
`exTreeTax`. -/
theorem C8_amended_rendering_witness :
    get_taxonomy exTreeTax (some [1, 0, 0]) = some (taxClosed exTreeTax [1, 0, 0]) :=
  (C8_amended_rendering exTreeTax [1, 0, 0] rfl).1

-- Claim C10.

theorem dictLookup_cons_self {β : Type} (k : String) (w : β) (rest : List (String × β))
    (q : String) (hk : (k == q) = true) :
    dictLookup ((k, w) :: rest) q = some w := by
  simp only [dictLookup, List.find?_cons, hk]
  rfl

theorem dictLookup_cons_other {β : Type} (k : String) (w : β) (rest : List (String × β))
    (q : String) (hk : (k == q) = false) :
    dictLookup ((k, w) :: rest) q = dictLookup rest q := by
  simp only [dictLookup, List.find?_cons, hk]

theorem otuShape_overwrite (acc : List (String × OTU)) (q : String) (v otu : OTU)
    (hfound : dictLookup acc q = some otu)
    (hname : v.name = otu.name) (hseq : v.sequence = otu.sequence)
    (hnodup : (acc.map Prod.fst).Nodup) :
    otuShape (acc.map (fun kv => if kv.1 == q then (q, v) else kv)) = otuShape acc := by
  induction acc with
  | nil => simp [dictLookup] at hfound
  | cons kw rest ih =>
    obtain ⟨k, w⟩ := kw
    rw [List.map_cons] at hnodup
    have hknotin : k ∉ rest.map Prod.fst := (List.nodup_cons.mp hnodup).1
    have hrestnd : (rest.map Prod.fst).Nodup := (List.nodup_cons.mp hnodup).2
    by_cases hk : (k == q) = true
    · have hkq : k = q := eq_of_beq hk
      have hw : otu = w := by
        rw [dictLookup_cons_self k w rest q hk] at hfound
        exact (Option.some.inj hfound).symm
      have hrest : rest.map (fun kv => if kv.1 == q then (q, v) else kv) = rest.map id := by
        apply List.map_congr_left
        intro kv hkv
        have hne : kv.1 ≠ q := by
          intro habs
          exact hknotin (hkq ▸ habs ▸ List.mem_map_of_mem Prod.fst hkv)
        rw [if_neg (by simp [hne])]
        rfl
      rw [List.map_cons, if_pos hk, hrest, List.map_id]
      unfold otuShape
      rw [List.map_cons, List.map_cons]
      congr 1
      rw [hkq, hname, hseq, hw]
    · have hkf : (k == q) = false := by
        cases hkk : (k == q) with
        | true => exact absurd hkk hk
        | false => rfl
      rw [dictLookup_cons_other k w rest q hkf] at hfound
      rw [List.map_cons, if_neg (by simp [hkf])]
      unfold otuShape
      rw [List.map_cons, List.map_cons]
      congr 1
      exact ih hfound hrestnd

theorem otuShape_dictSet (acc : List (String × OTU)) (q : String) (v otu : OTU)
    (hfound : dictLookup acc q = some otu)
    (hname : v.name = otu.name) (hseq : v.sequence = otu.sequence)
    (hnodup : (acc.map Prod.fst).Nodup) :
    otuShape (dictSet acc q v) = otuShape acc := by
  rw [dictSet, if_pos (any_of_dictLookup_isSome acc q otu hfound)]
  exact otuShape_overwrite acc q v otu hfound hname hseq hnodup

theorem keys_of_otuShape (l1 l2 : List (String × OTU))
    (h : otuShape l1 = otuShape l2) : l1.map Prod.fst = l2.map Prod.fst := by
  have h2 : (otuShape l1).map Prod.fst = (otuShape l2).map Prod.fst := by rw [h]
  unfold otuShape at h2
  rw [List.map_map, List.map_map] at h2
  exact h2

theorem classify_step_none (t : Clade) (node_names : List (String × Pos))
    (assignment_min : List (String × Rat)) (no_hits : Pos) (euk_filter : Bool)
    (aggregate : List BlastRec → HitSetM) (pass : List BlastRec)
    (acc : List (String × OTU)) (q : String)
    (hl : dictLookup acc q = none) :
    classify_step t node_names assignment_min no_hits euk_filter aggregate pass acc q =
      Except.error () := by
  unfold classify_step
  rw [hl]

theorem classify_step_found (t : Clade) (node_names : List (String × Pos))
    (assignment_min : List (String × Rat)) (no_hits : Pos) (euk_filter : Bool)
    (aggregate : List BlastRec → HitSetM) (pass : List BlastRec)
    (acc : List (String × OTU)) (q : String) (otu : OTU)
    (hl : dictLookup acc q = some otu) :
    classify_step t node_names assignment_min no_hits euk_filter aggregate pass acc q =
      match classify_hits t node_names assignment_min no_hits euk_filter
          (aggregate (pass.filter (fun r => r.qseqid == q))) with
      | .error e => .error e
      | .ok cls => .ok (dictSet acc q { otu with classification := some cls }) := by
  unfold classify_step
  rw [hl]

theorem classify_step_shape (t : Clade) (node_names : List (String × Pos))
    (assignment_min : List (String × Rat)) (no_hits : Pos) (euk_filter : Bool)
    (aggregate : List BlastRec → HitSetM) (pass : List BlastRec)
    (acc res : List (String × OTU)) (q : String)
    (hnd : (acc.map Prod.fst).Nodup)
    (hs : classify_step t node_names assignment_min no_hits euk_filter aggregate pass
      acc q = Except.ok res) :
    otuShape res = otuShape acc := by
  cases hl : dictLookup acc q with
  | none =>
    rw [classify_step_none t node_names assignment_min no_hits euk_filter aggregate
      pass acc q hl] at hs
    exact Except.noConfusion hs
  | some otu =>
    rw [classify_step_found t node_names assignment_min no_hits euk_filter aggregate
      pass acc q otu hl] at hs
    cases hcl : classify_hits t node_names assignment_min no_hits euk_filter
        (aggregate (pass.filter (fun r => r.qseqid == q))) with
    | error e => rw [hcl] at hs; exact Except.noConfusion hs
    | ok cls =>
      rw [hcl] at hs
      have hres : dictSet acc q { otu with classification := some cls } = res :=
        Except.ok.inj hs
      rw [← hres]
      exact otuShape_dictSet acc q _ otu hl rfl rfl hnd

theorem parse_fold_shape (step : List (String × OTU) → String →
      Except Unit (List (String × OTU)))
    (hstep : ∀ acc q res, (acc.map Prod.fst).Nodup → step acc q = Except.ok res →
      otuShape res = otuShape acc) :
    ∀ (qids : List String) (acc res : List (String × OTU)),
      (acc.map Prod.fst).Nodup → qids.foldlM step acc = Except.ok res →
      otuShape res = otuShape acc := by
  intro qids
  induction qids with
  | nil =>
    intro acc res hnd hok
    rw [List.foldlM_nil] at hok
    rw [← Except.ok.inj hok]
  | cons x xs ih =>
    intro acc res hnd hok
    rw [List.foldlM_cons] at hok
    cases hs : step acc x with
    | error e =>
      rw [hs] at hok
      exact absurd hok (by simp [Bind.bind, Except.bind])
    | ok acc2 =>
      rw [hs] at hok
      have hok2 : xs.foldlM step acc2 = Except.ok res := by
        simpa [Bind.bind, Except.bind] using hok
      have hsh : otuShape acc2 = otuShape acc := hstep acc x acc2 hnd hs
      have hnd2 : (acc2.map Prod.fst).Nodup := by
        rw [keys_of_otuShape acc2 acc hsh]
        exact hnd
      rw [ih acc2 res hnd2 hok2, hsh]

/-- Claim C10 (confirmed): whenever `parse_blasthits` returns normally, the
OTU collection has exactly the same keys in the same order, and every OTU's
name and sequence are unchanged — only the classification field is ever
assigned. -/
theorem C10_frame (aggregate : List BlastRec → HitSetM) (blastrecs : List BlastRec)
    (otus : List (String × OTU)) (t : Clade) (node_names : List (String × Pos))
    (assignment_min : List (String × Rat)) (no_hits : Pos) (min_score : Rat)
    (euk_filter : Bool) (otus' : List (String × OTU))
    (hnodup : (otus.map Prod.fst).Nodup)
    (hok : parse_blasthits aggregate blastrecs otus t node_names assignment_min
      no_hits min_score euk_filter = Except.ok otus') :
    otuShape otus' = otuShape otus := by
  unfold parse_blasthits at hok
  exact parse_fold_shape _
    (fun acc q res hnd hs => classify_step_shape t node_names assignment_min no_hits
      euk_filter aggregate _ acc res q hnd hs)
    _ otus otus' hnodup hok

/-- Witness for C10: a concrete successful run (one good record for "q1")
preserves the frame. -/
theorem C10_frame_witness :
    otuShape [("q1", ⟨"q1", "ACGT", some [1]⟩)] = otuShape exOtus :=
  C10_frame simpleAggregate [⟨"q1", "A", 97, 200⟩] exOtus exTree exNames [] [0] 155
    false [("q1", ⟨"q1", "ACGT", some [1]⟩)] (by decide) rfl

-- Claim C5.

theorem classify_step_untouched (t : Clade) (node_names : List (String × Pos))
    (assignment_min : List (String × Rat)) (no_hits : Pos) (euk_filter : Bool)
    (aggregate : List BlastRec → HitSetM) (pass : List BlastRec)
    (acc res : List (String × OTU)) (q q' : String) (hne : q' ≠ q)
    (hs : classify_step t node_names assignment_min no_hits euk_filter aggregate pass
      acc q' = Except.ok res) :
    dictLookup res q = dictLookup acc q := by
  cases hl : dictLookup acc q' with
  | none =>
    rw [classify_step_none t node_names assignment_min no_hits euk_filter aggregate
      pass acc q' hl] at hs
    exact Except.noConfusion hs
  | some otu =>
    rw [classify_step_found t node_names assignment_min no_hits euk_filter aggregate
      pass acc q' otu hl] at hs
    cases hcl : classify_hits t node_names assignment_min no_hits euk_filter
        (aggregate (pass.filter (fun r => r.qseqid == q'))) with
    | error e => rw [hcl] at hs; exact Except.noConfusion hs
    | ok cls =>
      rw [hcl] at hs
      rw [← Except.ok.inj hs]
      exact dictLookup_dictSet_other acc q' q _ (fun h => hne h.symm)

theorem parse_fold_untouched (step : List (String × OTU) → String →
      Except Unit (List (String × OTU))) (q : String)
    (hstep : ∀ acc q' res, q' ≠ q → step acc q' = Except.ok res →
      dictLookup res q = dictLookup acc q) :
    ∀ (qids : List String) (acc res : List (String × OTU)),
      q ∉ qids → qids.foldlM step acc = Except.ok res →
      dictLookup res q = dictLookup acc q := by
  intro qids
  induction qids with
  | nil =>
    intro acc res _ hok
    rw [List.foldlM_nil] at hok
    rw [← Except.ok.inj hok]
  | cons x xs ih =>
    intro acc res hqmem hok
    rw [List.foldlM_cons] at hok
    cases hs : step acc x with
    | error e =>
      rw [hs] at hok
      exact absurd hok (by simp [Bind.bind, Except.bind])
    | ok acc2 =>
      rw [hs] at hok
      have hok2 : xs.foldlM step acc2 = Except.ok res := by
        simpa [Bind.bind, Except.bind] using hok
      have hx : x ≠ q := fun h => hqmem (h ▸ List.mem_cons_self _ _)
      have hxs : q ∉ xs := fun h => hqmem (List.mem_cons_of_mem _ h)
      rw [ih acc2 res hxs hok2, hstep acc x acc2 hx hs]

/-- Claim C5 (counterexample): with the single record for "q1" falling below
the minimum bit score, "q1" never enters `hsps`, so `parse_blasthits`
returns with the OTU's classification still `None` — it is *not* assigned
the no-hits sentinel node (`[0]` here). -/
theorem C5_counterexample :
    parse_blasthits simpleAggregate [⟨"q1", "A", 97, 10⟩] exOtus exTree exNames []
      [0] 155 false = Except.ok [("q1", ⟨"q1", "ACGT", none⟩)] ∧
    (none : Option Pos) ≠ some [0] :=
  ⟨rfl, by simp⟩

/-- Claim C5 (amended): a query all of whose alignment records fall below
the minimum bit score gets no `BlastHits` entry at all, so on a normal
return its stored classification is simply left as it was — unset (`None`)
for a fresh OTU, never assigned the no-hits sentinel node (that node is
assigned only when a nonempty hit set fails LCA resolution); the rendering
of an unset classification is the all-`"?"` record, the same rendering the
sentinel would produce. -/
theorem C5_amended_unclassified (aggregate : List BlastRec → HitSetM)
    (blastrecs : List BlastRec) (otus : List (String × OTU)) (t : Clade)
    (node_names : List (String × Pos)) (assignment_min : List (String × Rat))
    (no_hits : Pos) (min_score : Rat) (euk_filter : Bool) (q : String)
    (otus' : List (String × OTU))
    (hq : ∀ r ∈ blastrecs, r.qseqid = q → r.bitscore < min_score)
    (hok : parse_blasthits aggregate blastrecs otus t node_names assignment_min
      no_hits min_score euk_filter = Except.ok otus') :
    dictLookup otus' q = dictLookup otus q ∧
    get_taxonomy t none = some taxInit ∧
    ∀ kv ∈ taxInit, kv.2 = "?" := by
  refine ⟨?_, rfl, by decide⟩
  unfold parse_blasthits at hok
  have hnot : q ∉ firstDedup ((blastrecs.filter
      (fun r => !decide (r.bitscore < min_score))).map (fun r => r.qseqid)) := by
    intro hmem
    have hmem2 := firstDedup_subset _ _ hmem
    rw [List.mem_map] at hmem2
    obtain ⟨r, hr, hrq⟩ := hmem2
    rw [List.mem_filter] at hr
    have hlt := hq r hr.1 hrq
    rw [decide_eq_true hlt] at hr
    simp at hr
  exact parse_fold_untouched _ q
    (fun acc q' res hne hs => classify_step_untouched t node_names assignment_min
      no_hits euk_filter aggregate _ acc res q q' hne hs)
    _ otus otus' hnot hok

/-- Witness for the amended C5: "q1" keeps only a low-scoring record while
"q2" classifies normally; "q1" stays unset. -/
theorem C5_amended_unclassified_witness :
    dictLookup [("q1", (⟨"q1", "ACGT", none⟩ : OTU)),
      ("q2", ⟨"q2", "GGGG", some [1]⟩)] "q1" = dictLookup exOtus2 "q1" ∧
    get_taxonomy exTree none = some taxInit :=
  ⟨(C5_amended_unclassified simpleAggregate [⟨"q1", "A", 97, 10⟩, ⟨"q2", "A", 97, 200⟩]
      exOtus2 exTree exNames [] [0] 155 false "q1"
      [("q1", ⟨"q1", "ACGT", none⟩), ("q2", ⟨"q2", "GGGG", some [1]⟩)]
      (by decide) rfl).1,
   (C5_amended_unclassified simpleAggregate [⟨"q1", "A", 97, 10⟩, ⟨"q2", "A", 97, 200⟩]
      exOtus2 exTree exNames [] [0] 155 false "q1"
      [("q1", ⟨"q1", "ACGT", none⟩), ("q2", ⟨"q2", "GGGG", some [1]⟩)]
      (by decide) rfl).2.1⟩
